import Mathlib

/-!
Verification of the `dbinit` particle-group editor core against its
natural-language specification.

The Python source is shallowly embedded:

* `src/dbi/core/model.py`      → `Box`, `DataSet`, `Group`, `BreatherParams`,
  `Edit`, `ProjectState` and its methods (`remove_group`,
  `colors_rgba_for_all`, `undo`, `redo`);
* `src/dbi/ui/main_window.py`  → `assignIndices` (`MainWindow._assign_indices`),
  the horizontal/vertical line-selection branch of `on_mouse_clicked`
  (`lineSelectCore`), and the center-expression evaluator (`evalCenter`);
* `src/dbi/core/lammps_parser.py` → `HEADER_KEYS`, `iterAtomsBlock`;
* `src/dbi/core/project_io.py` → `save_project`, `load_project`.

Machine floats are modelled as rationals, numpy integer arrays as `List Int`,
numpy index arrays as `List Nat`.  Python lists used as stacks keep their
Python orientation: index 0 (the Lean list head) is the bottom/oldest entry,
the last element is the top.
-/

namespace DBInit

/-! ### Generic list-write operations (numpy fancy assignment) -/

/-- `a[indices] = vals` for a numpy 1-D array: write the values pairwise,
left to right.  Out-of-range writes are dropped (numpy would raise; all
call sites in the program pass in-range indices). -/
def setMany (a : List Int) : List Nat → List Int → List Int
  | [], _ => a
  | _, [] => a
  | i :: is, v :: vs => setMany (a.set i v) is vs

/-- `a[indices]` for a numpy 1-D array, reading each index with default 0. -/
def readMany (a : List Int) (is : List Nat) : List Int :=
  is.map (fun i => a.getD i 0)

theorem getD_set_self (a : List Int) (i : Nat) (v d : Int) (h : i < a.length) :
    (a.set i v).getD i d = v := by
  induction a generalizing i with
  | nil => simp at h
  | cons x xs ih =>
    cases i with
    | zero => simp [List.getD]
    | succ n =>
      simp only [List.set, List.getD_cons_succ]
      exact ih n (by simpa using h)

theorem getD_set_ne (a : List Int) (i j : Nat) (v d : Int) (h : j ≠ i) :
    (a.set i v).getD j d = a.getD j d := by
  induction a generalizing i j with
  | nil => simp [List.set]
  | cons x xs ih =>
    cases i with
    | zero =>
      cases j with
      | zero => exact absurd rfl h
      | succ m => simp [List.getD]
    | succ n =>
      cases j with
      | zero => simp [List.getD]
      | succ m =>
        simp only [List.set, List.getD_cons_succ]
        exact ih n m (fun hc => h (by simp [hc]))

theorem set_getD_self (a : List Int) (i : Nat) :
    a.set i (a.getD i 0) = a := by
  induction a generalizing i with
  | nil => simp
  | cons x xs ih =>
    cases i with
    | zero => simp [List.getD]
    | succ n => simp only [List.set, List.getD_cons_succ]; rw [ih]

theorem setMany_length (is : List Nat) (vs : List Int) (a : List Int) :
    (setMany a is vs).length = a.length := by
  induction is generalizing a vs with
  | nil => simp [setMany]
  | cons i is ih =>
    cases vs with
    | nil => simp [setMany]
    | cons v vs => simp [setMany, ih, List.length_set]

theorem setMany_set_comm (is : List Nat) (vs : List Int) (a : List Int)
    (i : Nat) (v : Int) (h : i ∉ is) :
    setMany (a.set i v) is vs = (setMany a is vs).set i v := by
  induction is generalizing a vs with
  | nil => simp [setMany]
  | cons j js ih =>
    cases vs with
    | nil => simp [setMany]
    | cons w ws =>
      have hij : i ≠ j := fun hc => h (hc ▸ List.mem_cons_self j js)
      have hji : i ∉ js := fun hc => h (List.mem_cons_of_mem j hc)
      simp only [setMany]
      rw [List.set_comm _ _ _ hij, ih _ _ hji]

theorem setMany_getD_not_mem (is : List Nat) (vs : List Int) (a : List Int)
    (j : Nat) (d : Int) (h : j ∉ is) :
    (setMany a is vs).getD j d = a.getD j d := by
  induction is generalizing a vs with
  | nil => simp [setMany]
  | cons i is ih =>
    cases vs with
    | nil => simp [setMany]
    | cons v ws =>
      have hji : j ≠ i := fun hc => h (hc ▸ List.mem_cons_self i is)
      have hmem : j ∉ is := fun hc => h (List.mem_cons_of_mem i hc)
      simp only [setMany]
      rw [ih _ _ hmem, getD_set_ne _ _ _ _ _ hji]

/-- Writing back an array's own current values is the identity. -/
theorem setMany_self (is : List Nat) (a : List Int) :
    setMany a is (readMany a is) = a := by
  induction is generalizing a with
  | nil => simp [setMany]
  | cons i is ih =>
    simp only [readMany, List.map_cons, setMany, set_getD_self]
    exact ih a

theorem set_oob (a : List Int) (i : Nat) (v : Int) (h : a.length ≤ i) :
    a.set i v = a := by
  induction a generalizing i with
  | nil => simp
  | cons x xs ih =>
    cases i with
    | zero => simp at h
    | succ n => simp only [List.set]; rw [ih n (by simpa using h)]

/-- Restoration: overwrite at a duplicate-free index set, then write the
original values back — the array is restored exactly. -/
theorem setMany_restore (is : List Nat) (hnd : is.Nodup) (vs : List Int)
    (a : List Int) :
    setMany (setMany a is vs) is (readMany a is) = a := by
  induction is generalizing a vs with
  | nil => simp [setMany]
  | cons i is ih =>
    obtain ⟨hni, hnd'⟩ := List.nodup_cons.mp hnd
    cases vs with
    | nil =>
      have h1 : setMany a (i :: is) ([] : List Int) = a := rfl
      rw [h1]
      exact setMany_self _ _
    | cons v ws =>
      have h1 : setMany (setMany a (i :: is) (v :: ws)) (i :: is)
            (readMany a (i :: is))
          = setMany ((setMany (a.set i v) is ws).set i (a.getD i 0)) is
            (readMany a is) := rfl
      rw [h1]
      have hX : setMany (a.set i v) is ws = (setMany a is ws).set i v :=
        setMany_set_comm is ws a i v hni
      rw [hX, List.set_set]
      have hY : setMany ((setMany a is ws).set i (a.getD i 0)) is
            (readMany a is)
          = (setMany (setMany a is ws) is (readMany a is)).set i
            (a.getD i 0) :=
        setMany_set_comm is (readMany a is) (setMany a is ws) i
          (a.getD i 0) hni
      rw [hY, ih hnd' ws a, set_getD_self]

/-- Pointwise description of a write whose values are computed from the
array's own current values by `f`. -/
theorem setMany_map_getD (is : List Nat) (hnd : is.Nodup) (f : Int → Int)
    (a : List Int) (j : Nat) :
    (setMany a is (is.map (fun i => f (a.getD i 0)))).getD j 0 =
      if j ∈ is ∧ j < a.length then f (a.getD j 0) else a.getD j 0 := by
  induction is generalizing a with
  | nil => simp [setMany]
  | cons i is ih =>
    have hni : i ∉ is := (List.nodup_cons.mp hnd).1
    have hnd' : is.Nodup := (List.nodup_cons.mp hnd).2
    simp only [List.map_cons, setMany]
    have hmap : is.map (fun k => f (a.getD k 0)) =
        is.map (fun k => f ((a.set i (f (a.getD i 0))).getD k 0)) := by
      apply List.map_congr_left
      intro k hk
      have hki : k ≠ i := fun hc => hni (hc ▸ hk)
      rw [getD_set_ne _ _ _ _ _ hki]
    rw [hmap, ih hnd']
    by_cases hj : j ∈ is
    · have hji : j ≠ i := fun hc => hni (hc ▸ hj)
      rw [getD_set_ne _ _ _ _ _ hji]
      simp [hj, List.length_set, List.mem_cons, hji]
    · by_cases hji : j = i
      · subst hji
        simp only [hj, false_and, if_false, List.length_set]
        by_cases hlt : j < a.length
        · rw [getD_set_self _ _ _ _ hlt]
          simp [hlt]
        · rw [set_oob _ _ _ (Nat.le_of_not_lt hlt)]
          simp [hlt]
      · rw [getD_set_ne _ _ _ _ _ hji]
        simp [hj, hji]

/-! ### Data model (`src/dbi/core/model.py`) -/

structure Box where
  xlo : ℚ
  xhi : ℚ
  ylo : ℚ
  yhi : ℚ
  zlo : ℚ
  zhi : ℚ
  deriving Repr, DecidableEq

structure DataSet where
  ids : List Int
  x : List ℚ
  y : List ℚ
  z : List ℚ
  box : Box
  deriving Repr, DecidableEq

/-- A group; `color` is the RGBA quadruple (Python tuple of ints) and
`direction` the 3-component direction (Python tuple of floats), both kept
as lists since the serializer moves them through JSON lists unchanged. -/
structure Group where
  gid : Int
  name : String
  color : List Int := [200, 200, 200, 255]
  direction : List ℚ := [1, 0, 0]
  deriving Repr, DecidableEq

structure BreatherParams where
  A : ℚ := 1 / 20
  beta : ℚ := 1
  x0 : ℚ := 0
  y0 : ℚ := 0
  deriving Repr, DecidableEq

structure Edit where
  indices : List Nat
  before : List Int
  after : List Int
  description : String
  deriving Repr, DecidableEq

/-- `ProjectState`.  `groups` is the Python insertion-ordered dict as an
association list; `undo_stack`/`redo_stack` are Python lists whose *last*
element is the stack top (Python `append`/`pop`) and whose first element is
the oldest entry (Python `pop(0)` eviction). -/
structure ProjectState where
  data : DataSet
  assignment : List Int
  groups : List (Int × Group) := []
  undo_stack : List Edit := []
  redo_stack : List Edit := []
  max_history : Nat := 100
  breather : BreatherParams := {}
  apply_localizing : Bool := true
  preserve_base_selection : Bool := true
  deriving Repr, DecidableEq

/-- Python `gid in self.groups` (dict key membership). -/
def hasKey (m : List (Int × Group)) (k : Int) : Bool :=
  m.any (fun p => p.1 == k)

/-- Python dict assignment `d[k] = g`: replace in place if the key exists
(keeping its position), else append. -/
def dictInsert (m : List (Int × Group)) (k : Int) (g : Group) :
    List (Int × Group) :=
  if hasKey m k then m.map (fun p => if p.1 == k then (k, g) else p)
  else m ++ [(k, g)]

/-- Python `self.groups[gid]` lookup (partial; `none` when absent). -/
def lookupGroup (m : List (Int × Group)) (k : Int) : Option Group :=
  (m.find? (fun p => p.1 == k)).map (·.2)

/-- `ProjectState.add_group`. -/
def ProjectState.add_group (s : ProjectState) (gid : Int) (name : String)
    (color : List Int := [200, 200, 200, 255]) : ProjectState :=
  { s with groups := dictInsert s.groups gid { gid := gid, name := name, color := color } }

/-- `ProjectState.remove_group`: if the id is present, delete it from the
table and reset every assignment entry equal to it to 0.  The undo/redo
stacks are not touched. -/
def ProjectState.remove_group (s : ProjectState) (gid : Int) : ProjectState :=
  if hasKey s.groups gid then
    { s with
      groups := s.groups.filter (fun p => ! (p.1 == gid)),
      assignment := s.assignment.map (fun v => if v == gid then 0 else v) }
  else s

/-- `ProjectState.colors_rgba_for_all`: per-entry RGBA colors; label 0 and
labels absent from the table get the unassigned color. -/
def ProjectState.colors_rgba_for_all (s : ProjectState)
    (rgba_unassigned : List Int := [160, 160, 160, 255]) : List (List Int) :=
  s.assignment.map (fun gid =>
    if gid == 0 then rgba_unassigned
    else
      match lookupGroup s.groups gid with
      | none => rgba_unassigned
      | some g => g.color)

/-- `ProjectState.undo`: pop the most recent Edit, write its `before`
values back, push it onto redo; `none` and no change when empty. -/
def ProjectState.undo (s : ProjectState) : ProjectState × Option Edit :=
  match s.undo_stack.getLast? with
  | none => (s, none)
  | some e =>
    ({ s with
        assignment := setMany s.assignment e.indices e.before,
        undo_stack := s.undo_stack.dropLast,
        redo_stack := s.redo_stack ++ [e] }, some e)

/-- `ProjectState.redo`: symmetric, replays `after` values. -/
def ProjectState.redo (s : ProjectState) : ProjectState × Option Edit :=
  match s.redo_stack.getLast? with
  | none => (s, none)
  | some e =>
    ({ s with
        assignment := setMany s.assignment e.indices e.after,
        redo_stack := s.redo_stack.dropLast,
        undo_stack := s.undo_stack ++ [e] }, some e)

/-! ### `np.unique` and the assignment mutation
(`MainWindow._assign_indices`, `src/dbi/ui/main_window.py` 1069–1110) -/

/-- Insert into a sorted duplicate-free list, dropping duplicates. -/
def insertSortedNat (x : Nat) : List Nat → List Nat
  | [] => [x]
  | y :: ys =>
    if x < y then x :: y :: ys
    else if x = y then y :: ys
    else y :: insertSortedNat x ys

/-- `np.unique`: the sorted list of distinct values. -/
def npUnique (l : List Nat) : List Nat :=
  l.foldl (fun acc x => insertSortedNat x acc) []

theorem mem_insertSortedNat (x z : Nat) (l : List Nat) :
    z ∈ insertSortedNat x l ↔ z = x ∨ z ∈ l := by
  induction l with
  | nil => simp [insertSortedNat]
  | cons y ys ih =>
    by_cases h1 : x < y
    · simp [insertSortedNat, h1]
    · by_cases h2 : x = y
      · subst h2
        simp only [insertSortedNat, if_neg h1, if_pos rfl]
        constructor
        · intro h; exact Or.inr h
        · rintro (rfl | h)
          · exact List.mem_cons_self _ _
          · exact h
      · simp only [insertSortedNat, if_neg h1, if_neg h2, List.mem_cons, ih]
        tauto

theorem sorted_insertSortedNat (x : Nat) (l : List Nat)
    (h : l.Sorted (· < ·)) : (insertSortedNat x l).Sorted (· < ·) := by
  induction l with
  | nil => simp [insertSortedNat]
  | cons y ys ih =>
    rw [List.sorted_cons] at h
    by_cases h1 : x < y
    · rw [insertSortedNat, if_pos h1, List.sorted_cons]
      refine ⟨?_, (List.sorted_cons).mpr h⟩
      intro b hb
      rcases List.mem_cons.mp hb with rfl | hb
      · exact h1
      · exact h1.trans (h.1 b hb)
    · by_cases h2 : x = y
      · rw [insertSortedNat, if_neg h1, if_pos h2, List.sorted_cons]
        exact h
      · have hyx : y < x := by omega
        rw [insertSortedNat, if_neg h1, if_neg h2, List.sorted_cons]
        constructor
        · intro b hb
          rcases (mem_insertSortedNat x b ys).mp hb with rfl | hb
          · exact hyx
          · exact h.1 b hb
        · exact ih h.2

theorem npUnique_aux_sorted (l acc : List Nat) (h : acc.Sorted (· < ·)) :
    (l.foldl (fun acc x => insertSortedNat x acc) acc).Sorted (· < ·) := by
  induction l generalizing acc with
  | nil => simpa
  | cons x xs ih => exact ih _ (sorted_insertSortedNat x acc h)

theorem npUnique_sorted (l : List Nat) : (npUnique l).Sorted (· < ·) :=
  npUnique_aux_sorted l [] (by simp)

theorem npUnique_nodup (l : List Nat) : (npUnique l).Nodup :=
  (npUnique_sorted l).nodup

theorem npUnique_aux_mem (l acc : List Nat) (z : Nat) :
    z ∈ l.foldl (fun acc x => insertSortedNat x acc) acc ↔
      z ∈ acc ∨ z ∈ l := by
  induction l generalizing acc with
  | nil => simp
  | cons x xs ih =>
    simp only [List.foldl_cons, ih, mem_insertSortedNat, List.mem_cons]
    tauto

theorem mem_npUnique (l : List Nat) (z : Nat) : z ∈ npUnique l ↔ z ∈ l := by
  simp [npUnique, npUnique_aux_mem]

/-- Selection-mutation mode (`mode` string of `_assign_indices`). -/
inductive AMode where
  | add
  | remove
  | toggle
  deriving Repr, DecidableEq

/-- Common tail of `_assign_indices`: write the `after` values, push the
`Edit` onto the undo stack, evict the oldest entry (`pop(0)`) when the
stack exceeds `max_history`, and clear the redo stack. -/
def pushAssign (s : ProjectState) (indices : List Nat)
    (before after : List Int) (desc : String) : ProjectState :=
  let pushed := s.undo_stack ++ [⟨indices, before, after, desc⟩]
  { s with
    assignment := setMany s.assignment indices after,
    undo_stack := if s.max_history < pushed.length then pushed.drop 1 else pushed,
    redo_stack := [] }

/-- `MainWindow._assign_indices`: deduplicate the indices, snapshot the
current labels, compute the new labels per mode, and push the edit.
`add`/`toggle` with active group 0 are refused without mutation. -/
def assignIndices (s : ProjectState) (indices0 : List Nat) (mode : AMode)
    (gid : Int) : ProjectState :=
  let indices := npUnique indices0
  let curr := readMany s.assignment indices
  match mode with
  | .remove =>
    pushAssign s indices curr (curr.map (fun _ => 0))
      ("remove " ++ toString indices.length)
  | .toggle =>
    if gid == 0 then s
    else
      pushAssign s indices curr (curr.map (fun c => if c == gid then 0 else gid))
        ("toggle " ++ toString indices.length)
  | .add =>
    if gid == 0 then s
    else
      pushAssign s indices curr (curr.map (fun c => if c == gid then c else gid))
        ("add " ++ toString indices.length)

theorem assign_remove_eq (s : ProjectState) (idx0 : List Nat) (g : Int) :
    assignIndices s idx0 .remove g =
      pushAssign s (npUnique idx0) (readMany s.assignment (npUnique idx0))
        ((readMany s.assignment (npUnique idx0)).map (fun _ => 0))
        ("remove " ++ toString (npUnique idx0).length) := by
  simp only [assignIndices]

theorem assign_add_eq (s : ProjectState) (idx0 : List Nat) (g : Int)
    (hg : ¬ (g == 0) = true) :
    assignIndices s idx0 .add g =
      pushAssign s (npUnique idx0) (readMany s.assignment (npUnique idx0))
        ((readMany s.assignment (npUnique idx0)).map
          (fun c => if c == g then c else g))
        ("add " ++ toString (npUnique idx0).length) := by
  simp only [assignIndices]
  rw [if_neg hg]

theorem assign_toggle_eq (s : ProjectState) (idx0 : List Nat) (g : Int)
    (hg : ¬ (g == 0) = true) :
    assignIndices s idx0 .toggle g =
      pushAssign s (npUnique idx0) (readMany s.assignment (npUnique idx0))
        ((readMany s.assignment (npUnique idx0)).map
          (fun c => if c == g then 0 else g))
        ("toggle " ++ toString (npUnique idx0).length) := by
  simp only [assignIndices]
  rw [if_neg hg]

/-- Pointwise value of the assignment array written by `pushAssign` when
the new values are computed entrywise by `f` from the current ones. -/
theorem pushAssign_getD (s : ProjectState) (I : List Nat) (hnd : I.Nodup)
    (f : Int → Int) (desc : String) (j : Nat) :
    (pushAssign s I (readMany s.assignment I)
        ((readMany s.assignment I).map f) desc).assignment.getD j 0 =
      if j ∈ I ∧ j < s.assignment.length then f (s.assignment.getD j 0)
      else s.assignment.getD j 0 := by
  show (setMany s.assignment I ((readMany s.assignment I).map f)).getD j 0 = _
  rw [readMany, List.map_map]
  exact setMany_map_getD I hnd f s.assignment j

/-! ### Pointwise description of `List.map`, used by C8/C10 -/

theorem getD_map {α β : Type} (f : α → β) (l : List α) (i : Nat)
    (d : α) (d' : β) (h : i < l.length) :
    (l.map f).getD i d' = f (l.getD i d) := by
  induction l generalizing i with
  | nil => simp at h
  | cons x xs ih =>
    cases i with
    | zero => simp [List.getD]
    | succ n =>
      simp only [List.map_cons, List.getD_cons_succ]
      exact ih n (by simpa using h)

/-- C8: `remove_group` on a present id removes exactly that id from the
group table (other groups untouched), resets exactly the assignment
entries labeled with it to 0 (all others unchanged), and pushes nothing
onto the undo or redo stacks. -/
theorem remove_group_spec (s : ProjectState) (gid : Int)
    (h : hasKey s.groups gid = true) :
    (∀ p ∈ (s.remove_group gid).groups, p.1 ≠ gid) ∧
    (∀ p ∈ s.groups, p.1 ≠ gid → p ∈ (s.remove_group gid).groups) ∧
    (∀ p ∈ (s.remove_group gid).groups, p ∈ s.groups) ∧
    (s.remove_group gid).assignment.length = s.assignment.length ∧
    (∀ i, i < s.assignment.length →
      (s.remove_group gid).assignment.getD i 0 =
        if s.assignment.getD i 0 = gid then 0 else s.assignment.getD i 0) ∧
    (s.remove_group gid).undo_stack = s.undo_stack ∧
    (s.remove_group gid).redo_stack = s.redo_stack := by
  have hdef : s.remove_group gid =
      { s with
        groups := s.groups.filter (fun p => ! (p.1 == gid)),
        assignment := s.assignment.map (fun v => if v == gid then 0 else v) } := by
    rw [ProjectState.remove_group, if_pos h]
  rw [hdef]
  refine ⟨?_, ?_, ?_, by simp, ?_, rfl, rfl⟩
  · intro p hp
    have := List.of_mem_filter hp
    simpa using this
  · intro p hp hne
    exact List.mem_filter.mpr ⟨hp, by simpa using hne⟩
  · intro p hp
    exact List.mem_filter.mp hp |>.1
  · intro i hi
    simp only
    rw [getD_map _ _ _ 0 0 hi]
    by_cases hv : s.assignment.getD i 0 = gid <;> simp [hv]

/-- C10: `colors_rgba_for_all` is total (always produces one RGBA entry per
assignment entry); entries labeled 0 or with a label absent from the group
table get the unassigned color, and every other entry gets its owning
group's color. -/
theorem colors_rgba_for_all_spec (s : ProjectState) (rgba : List Int) :
    (s.colors_rgba_for_all rgba).length = s.assignment.length ∧
    ∀ i, i < s.assignment.length →
      ((s.assignment.getD i 0 = 0 ∨
          lookupGroup s.groups (s.assignment.getD i 0) = none) →
        (s.colors_rgba_for_all rgba).getD i [] = rgba) ∧
      (∀ g, s.assignment.getD i 0 ≠ 0 →
        lookupGroup s.groups (s.assignment.getD i 0) = some g →
        (s.colors_rgba_for_all rgba).getD i [] = g.color) := by
  constructor
  · simp [ProjectState.colors_rgba_for_all]
  · intro i hi
    constructor
    · intro hcase
      rw [ProjectState.colors_rgba_for_all, getD_map _ _ _ 0 [] hi]
      rcases hcase with h0 | habs
      · rw [h0]; simp
      · by_cases h0 : s.assignment.getD i 0 = 0
        · rw [h0]; simp
        · rw [if_neg (by simpa using h0), habs]
    · intro g h0 hsome
      rw [ProjectState.colors_rgba_for_all, getD_map _ _ _ 0 [] hi,
        if_neg (by simpa using h0), hsome]

/-- Witness for `remove_group_spec` at a concrete state. -/
theorem remove_group_spec_witness :
    let ds : DataSet :=
      { ids := [1, 2], x := [0, 1], y := [0, 0], z := [0, 0],
        box := ⟨0, 1, 0, 1, 0, 0⟩ }
    let s : ProjectState :=
      { data := ds, assignment := [2, 1],
        groups := [(1, { gid := 1, name := "a" }),
                   (2, { gid := 2, name := "b" })] }
    hasKey s.groups 2 = true ∧
      (∀ i, i < s.assignment.length →
        (s.remove_group 2).assignment.getD i 0 =
          if s.assignment.getD i 0 = 2 then 0 else s.assignment.getD i 0) := by
  intro ds s
  exact ⟨by decide, (remove_group_spec s 2 (by decide)).2.2.2.2.1⟩

/-- Witness for `colors_rgba_for_all_spec` at a concrete state. -/
theorem colors_rgba_for_all_spec_witness :
    let ds : DataSet :=
      { ids := [1, 2], x := [0, 1], y := [0, 0], z := [0, 0],
        box := ⟨0, 1, 0, 1, 0, 0⟩ }
    let s : ProjectState :=
      { data := ds, assignment := [0, 7],
        groups := [(1, { gid := 1, name := "a" })] }
    (s.assignment.getD 1 0 = 0 ∨ lookupGroup s.groups (s.assignment.getD 1 0) = none) →
      (s.colors_rgba_for_all [160, 160, 160, 255]).getD 1 [] =
        [160, 160, 160, 255] := by
  intro ds s
  exact ((colors_rgba_for_all_spec s [160, 160, 160, 255]).2 1 (by decide)).1

/-- C3: with an active group id `g > 0`, the assignment mutation acts on
exactly the given indices — `add` keeps entries already labeled `g` and
relabels 0-entries to `g` (and repeating the same `add` changes nothing),
`remove` forces every given index to 0, `toggle` sends entries labeled `g`
to 0 and all other given entries to `g` — while entries outside the given
index set are unchanged in every mode. -/
theorem assign_modes_spec (s : ProjectState) (idx0 : List Nat) (g : Int)
    (hg : 0 < g) (hb : ∀ i ∈ idx0, i < s.assignment.length) :
    (∀ m : AMode, ∀ j, j ∉ idx0 →
      (assignIndices s idx0 m g).assignment.getD j 0 = s.assignment.getD j 0) ∧
    (∀ i ∈ idx0,
      (s.assignment.getD i 0 = g →
        (assignIndices s idx0 .add g).assignment.getD i 0 = g) ∧
      (s.assignment.getD i 0 = 0 →
        (assignIndices s idx0 .add g).assignment.getD i 0 = g)) ∧
    ((assignIndices (assignIndices s idx0 .add g) idx0 .add g).assignment =
      (assignIndices s idx0 .add g).assignment) ∧
    (∀ i ∈ idx0, (assignIndices s idx0 .remove g).assignment.getD i 0 = 0) ∧
    (∀ i ∈ idx0,
      (assignIndices s idx0 .toggle g).assignment.getD i 0 =
        if s.assignment.getD i 0 = g then 0 else g) := by
  have hg0 : ¬ (g == 0) = true := by simp [hg.ne']
  have hnd := npUnique_nodup idx0
  have hgg : ((g == g) = true) := by simp
  refine ⟨?_, ?_, ?_, ?_, ?_⟩
  · -- frame: indices outside the given set are unchanged
    intro m j hj
    have hj' : j ∉ npUnique idx0 := fun hc => hj ((mem_npUnique idx0 j).mp hc)
    cases m with
    | add =>
      rw [assign_add_eq s idx0 g hg0, pushAssign_getD s _ hnd _ _ j,
        if_neg (fun hc => hj' hc.1)]
    | remove =>
      rw [assign_remove_eq s idx0 g, pushAssign_getD s _ hnd _ _ j,
        if_neg (fun hc => hj' hc.1)]
    | toggle =>
      rw [assign_toggle_eq s idx0 g hg0, pushAssign_getD s _ hnd _ _ j,
        if_neg (fun hc => hj' hc.1)]
  · -- add
    intro i hi
    have hi' : i ∈ npUnique idx0 := (mem_npUnique idx0 i).mpr hi
    have hlt := hb i hi
    rw [assign_add_eq s idx0 g hg0, pushAssign_getD s _ hnd _ _ i,
      if_pos ⟨hi', hlt⟩]
    constructor
    · intro hcur; rw [hcur]; simp
    · intro hcur; rw [hcur]
      have : ¬ ((0 : Int) == g) = true := by
        simp only [beq_iff_eq]
        exact fun hc => hg.ne' hc.symm
      rw [if_neg this]
  · -- add is idempotent on the assignment array
    set f : Int → Int := fun c => if c == g then c else g with hf
    have hidem : ∀ c, f (f c) = f c := by
      intro c
      by_cases hc : (c == g) = true
      · simp only [hf, if_pos hc, if_pos hc]
      · simp only [hf, if_neg hc, if_pos hgg]
    set s' := assignIndices s idx0 .add g with hs'
    have hlen : s'.assignment.length = s.assignment.length := by
      rw [hs', assign_add_eq s idx0 g hg0]
      show (setMany s.assignment _ _).length = _
      exact setMany_length _ _ _
    have hfix : ∀ i ∈ npUnique idx0,
        f (s'.assignment.getD i 0) = s'.assignment.getD i 0 := by
      intro i hi'
      have hlt := hb i ((mem_npUnique idx0 i).mp hi')
      have : s'.assignment.getD i 0 = f (s.assignment.getD i 0) := by
        rw [hs', assign_add_eq s idx0 g hg0, pushAssign_getD s _ hnd _ _ i,
          if_pos ⟨hi', hlt⟩]
      rw [this, hidem]
    rw [assign_add_eq s' idx0 g hg0]
    show setMany s'.assignment (npUnique idx0)
        ((readMany s'.assignment (npUnique idx0)).map f) = s'.assignment
    rw [readMany, List.map_map]
    have hmap : (npUnique idx0).map (f ∘ fun i => s'.assignment.getD i 0) =
        (npUnique idx0).map (fun i => s'.assignment.getD i 0) :=
      List.map_congr_left (fun i hi => hfix i hi)
    rw [hmap]
    exact setMany_self _ _
  · -- remove
    intro i hi
    have hi' : i ∈ npUnique idx0 := (mem_npUnique idx0 i).mpr hi
    rw [assign_remove_eq s idx0 g, pushAssign_getD s _ hnd _ _ i,
      if_pos ⟨hi', hb i hi⟩]
  · -- toggle
    intro i hi
    have hi' : i ∈ npUnique idx0 := (mem_npUnique idx0 i).mpr hi
    rw [assign_toggle_eq s idx0 g hg0, pushAssign_getD s _ hnd _ _ i,
      if_pos ⟨hi', hb i hi⟩]
    by_cases hc : s.assignment.getD i 0 = g
    · rw [if_pos hc, if_pos (by simpa using hc)]
    · rw [if_neg hc, if_neg (by simpa using hc)]

/-- Witness for `assign_modes_spec` at a concrete state. -/
theorem assign_modes_spec_witness :
    let ds : DataSet :=
      { ids := [1, 2, 3], x := [0, 1, 2], y := [0, 0, 0], z := [0, 0, 0],
        box := ⟨0, 10, 0, 10, 0, 0⟩ }
    let s : ProjectState := { data := ds, assignment := [0, 2, 1] }
    (0 : Int) < 1 ∧ (∀ i ∈ [0, 2], i < s.assignment.length) ∧
      ((assignIndices s [0, 2] .remove 1).assignment.getD 0 0 = 0) := by
  intro ds s
  refine ⟨by decide, by decide, ?_⟩
  exact (assign_modes_spec s [0, 2] 1 (by decide) (by decide)).2.2.2.1 0
    (by decide)

/-! ### Undo/redo coherence (C1, C7)

A state reachable by assignment mutations, `undo` and `redo` from a state
with empty stacks carries a *coherent event log*: the concatenation of the
undo stack and the reversed redo stack is a chronological list of edits,
each of whose `before` snapshots matches the array obtained by replaying
the `after` values of the edits preceding it. -/

/-- Replay one edit forward (write its `after` values). -/
def applyAfter (a : List Int) (e : Edit) : List Int :=
  setMany a e.indices e.after

/-- Replay a chronological edit list forward. -/
def replayA (a : List Int) (l : List Edit) : List Int :=
  l.foldl applyAfter a

/-- The edit list is chronologically coherent starting from array `a`:
every edit has duplicate-free indices and its `before` snapshot is the
state of the array just before it was applied. -/
def Coherent (a : List Int) : List Edit → Prop
  | [] => True
  | e :: es =>
    e.indices.Nodup ∧ e.before = readMany a e.indices ∧
      Coherent (applyAfter a e) es

/-- Chronological event log of a state: undo stack (oldest first) followed
by the redo stack reversed (the redo top is the chronologically next edit). -/
def timeline (s : ProjectState) : List Edit :=
  s.undo_stack ++ s.redo_stack.reverse

/-- History invariant of reachable states. -/
def Inv (s : ProjectState) : Prop :=
  ∃ a0, Coherent a0 (timeline s) ∧ s.assignment = replayA a0 s.undo_stack

theorem replayA_append (a : List Int) (l l' : List Edit) :
    replayA a (l ++ l') = replayA (replayA a l) l' :=
  List.foldl_append _ _ _ _

theorem coherent_append (l l' : List Edit) (a : List Int) :
    Coherent a (l ++ l') ↔ Coherent a l ∧ Coherent (replayA a l) l' := by
  induction l generalizing a with
  | nil => simp [Coherent, replayA]
  | cons e es ih =>
    have hstep : ∀ (b : List Int) (t : List Edit), Coherent b (e :: t) ↔
        (e.indices.Nodup ∧ e.before = readMany b e.indices ∧
          Coherent (applyAfter b e) t) := fun b t => Iff.rfl
    rw [List.cons_append, hstep, hstep, ih]
    rw [show replayA a (e :: es) = replayA (applyAfter a e) es from rfl]
    tauto

theorem getLast?_split {α : Type} {l : List α} {e : α}
    (h : l.getLast? = some e) : l = l.dropLast ++ [e] := by
  induction l with
  | nil => simp at h
  | cons x xs ih =>
    cases xs with
    | nil => simp at h; simp [h]
    | cons y ys =>
      have h' : (y :: ys).getLast? = some e := by
        simpa [List.getLast?] using h
      have := ih h'
      calc x :: y :: ys = x :: ((y :: ys).dropLast ++ [e]) := by rw [← this]
        _ = (x :: y :: ys).dropLast ++ [e] := by simp [List.dropLast]

/-- The three history-relevant operations preserve the invariant. -/
theorem inv_assign (s : ProjectState) (idx0 : List Nat) (m : AMode)
    (g : Int) (h : Inv s) : Inv (assignIndices s idx0 m g) := by
  obtain ⟨a0, hco, hasg⟩ := h
  have main : ∀ f desc,
      Inv (pushAssign s (npUnique idx0) (readMany s.assignment (npUnique idx0))
        ((readMany s.assignment (npUnique idx0)).map f) desc) := by
    intro f desc
    set I := npUnique idx0
    set vs := (readMany s.assignment I).map f with hvs
    set e : Edit := ⟨I, readMany s.assignment I, vs, desc⟩ with he
    have hcu : Coherent a0 s.undo_stack :=
      ((coherent_append _ _ _).mp hco).1
    have hcu' : Coherent a0 (s.undo_stack ++ [e]) := by
      rw [coherent_append]
      refine ⟨hcu, ?_, ?_, trivial⟩
      · exact npUnique_nodup idx0
      · rw [he, ← hasg]
    have hrepl : replayA a0 (s.undo_stack ++ [e]) =
        setMany s.assignment I vs := by
      rw [replayA_append, ← hasg]
      rfl
    have hundo : (pushAssign s I (readMany s.assignment I) vs desc).undo_stack =
        if s.max_history < (s.undo_stack ++ [e]).length then
          (s.undo_stack ++ [e]).drop 1
        else s.undo_stack ++ [e] := rfl
    have hredo : (pushAssign s I (readMany s.assignment I) vs desc).redo_stack =
        [] := rfl
    have hasg' : (pushAssign s I (readMany s.assignment I) vs desc).assignment =
        setMany s.assignment I vs := rfl
    by_cases hlen : s.max_history < (s.undo_stack ++ [e]).length
    · refine ⟨replayA a0 ((s.undo_stack ++ [e]).take 1), ?_, ?_⟩
      · rw [timeline, hundo, if_pos hlen, hredo, List.reverse_nil,
          List.append_nil]
        have : Coherent a0 (((s.undo_stack ++ [e]).take 1) ++
            ((s.undo_stack ++ [e]).drop 1)) := by
          rw [List.take_append_drop]; exact hcu'
        exact ((coherent_append _ _ _).mp this).2
      · rw [hasg', hundo, if_pos hlen, ← replayA_append,
          List.take_append_drop, hrepl]
    · refine ⟨a0, ?_, ?_⟩
      · rw [timeline, hundo, if_neg hlen, hredo, List.reverse_nil,
          List.append_nil]
        exact hcu'
      · rw [hasg', hundo, if_neg hlen, hrepl]
  cases m with
  | remove => rw [assign_remove_eq]; exact main _ _
  | add =>
    by_cases hg : (g == 0) = true
    · show Inv (if (g == 0) = true then s else _)
      rw [if_pos hg]
      exact ⟨a0, hco, hasg⟩
    · rw [assign_add_eq s idx0 g hg]; exact main _ _
  | toggle =>
    by_cases hg : (g == 0) = true
    · show Inv (if (g == 0) = true then s else _)
      rw [if_pos hg]
      exact ⟨a0, hco, hasg⟩
    · rw [assign_toggle_eq s idx0 g hg]; exact main _ _

theorem inv_undo (s : ProjectState) (h : Inv s) : Inv (s.undo).1 := by
  obtain ⟨a0, hco, hasg⟩ := h
  match hu : s.undo_stack.getLast? with
  | none =>
    rw [ProjectState.undo, hu]
    exact ⟨a0, hco, hasg⟩
  | some e =>
    rw [ProjectState.undo, hu]
    have hsplit := getLast?_split hu
    refine ⟨a0, ?_, ?_⟩
    · show Coherent a0 (s.undo_stack.dropLast ++ (s.redo_stack ++ [e]).reverse)
      have : s.undo_stack.dropLast ++ (s.redo_stack ++ [e]).reverse =
          s.undo_stack ++ s.redo_stack.reverse := by
        conv_rhs => rw [hsplit]
        simp
      rw [this]
      exact hco
    · show setMany s.assignment e.indices e.before =
        replayA a0 s.undo_stack.dropLast
      have hcsplit : Coherent a0 (s.undo_stack.dropLast ++
          ([e] ++ s.redo_stack.reverse)) := by
        rw [← List.append_assoc, ← hsplit]
        exact hco
      obtain ⟨-, hnd, hbef, -⟩ := (coherent_append _ _ _).mp hcsplit
      have hA : s.assignment =
          applyAfter (replayA a0 s.undo_stack.dropLast) e := by
        rw [hasg]
        conv_lhs => rw [hsplit]
        rw [replayA_append]
        rfl
      rw [hA, hbef]
      exact setMany_restore e.indices hnd e.after _

theorem inv_redo (s : ProjectState) (h : Inv s) : Inv (s.redo).1 := by
  obtain ⟨a0, hco, hasg⟩ := h
  match hr : s.redo_stack.getLast? with
  | none =>
    rw [ProjectState.redo, hr]
    exact ⟨a0, hco, hasg⟩
  | some e =>
    rw [ProjectState.redo, hr]
    have hsplit := getLast?_split hr
    have htl : s.undo_stack ++ s.redo_stack.reverse =
        (s.undo_stack ++ [e]) ++ s.redo_stack.dropLast.reverse := by
      conv_lhs => rw [hsplit]
      simp
    refine ⟨a0, ?_, ?_⟩
    · show Coherent a0 ((s.undo_stack ++ [e]) ++ s.redo_stack.dropLast.reverse)
      rw [← htl]
      exact hco
    · show setMany s.assignment e.indices e.after =
        replayA a0 (s.undo_stack ++ [e])
      rw [replayA_append, ← hasg]
      rfl

/-- States reachable from an empty-history state by any sequence of
assignment mutations, `undo` calls and `redo` calls. -/
inductive Reachable : ProjectState → Prop where
  | init (ds : DataSet) (asg : List Int) (groups : List (Int × Group))
      (max : Nat) (br : BreatherParams) (f1 f2 : Bool) :
      Reachable ⟨ds, asg, groups, [], [], max, br, f1, f2⟩
  | assign (s : ProjectState) (idx0 : List Nat) (m : AMode) (g : Int) :
      Reachable s → Reachable (assignIndices s idx0 m g)
  | undo (s : ProjectState) : Reachable s → Reachable (s.undo).1
  | redo (s : ProjectState) : Reachable s → Reachable (s.redo).1

theorem reachable_inv (s : ProjectState) (h : Reachable s) : Inv s := by
  induction h with
  | init ds asg groups max br f1 f2 =>
    exact ⟨asg, trivial, rfl⟩
  | assign s idx0 m g _ ih => exact inv_assign s idx0 m g ih
  | undo s _ ih => exact inv_undo s ih
  | redo s _ ih => exact inv_redo s ih

/-- C1 (amended): on every reachable state, `undo` followed by `redo`
restores the assignment array exactly when the undo stack is nonempty, and
`redo` followed by `undo` restores it exactly when the redo stack is
nonempty; a call whose stack is empty returns `none` and changes nothing.
(The unamended pair property fails when the first call's stack is empty
but the other stack is not — see the counterexample.) -/
theorem undo_redo_pair_spec (s : ProjectState) (h : Reachable s) :
    (s.undo_stack ≠ [] → ((s.undo).1.redo).1.assignment = s.assignment) ∧
    (s.redo_stack ≠ [] → ((s.redo).1.undo).1.assignment = s.assignment) ∧
    (s.undo_stack = [] → s.undo = (s, none)) ∧
    (s.redo_stack = [] → s.redo = (s, none)) := by
  obtain ⟨a0, hco, hasg⟩ := reachable_inv s h
  refine ⟨?_, ?_, ?_, ?_⟩
  · -- undo then redo
    intro hne
    obtain ⟨e, hu⟩ := Option.isSome_iff_exists.mp
      (List.getLast?_isSome.mpr hne)
    have hsplit := getLast?_split hu
    have hcsplit : Coherent a0 (s.undo_stack.dropLast ++
        ([e] ++ s.redo_stack.reverse)) := by
      rw [← List.append_assoc, ← hsplit]
      exact hco
    obtain ⟨-, hnd, hbef, -⟩ := (coherent_append _ _ _).mp hcsplit
    have hA : s.assignment =
        setMany (replayA a0 s.undo_stack.dropLast) e.indices e.after := by
      rw [hasg]
      conv_lhs => rw [hsplit]
      rw [replayA_append]
      rfl
    have hu1 : s.undo =
        ({ s with
            assignment := setMany s.assignment e.indices e.before,
            undo_stack := s.undo_stack.dropLast,
            redo_stack := s.redo_stack ++ [e] }, some e) := by
      simp only [ProjectState.undo, hu]
    rw [hu1]
    have hr1 : (s.redo_stack ++ [e]).getLast? = some e :=
      List.getLast?_concat _
    simp only [ProjectState.redo, hr1]
    show setMany (setMany s.assignment e.indices e.before) e.indices e.after
        = s.assignment
    rw [hA, hbef, setMany_restore e.indices hnd e.after, ← hA]
  · -- redo then undo
    intro hne
    obtain ⟨e, hr⟩ := Option.isSome_iff_exists.mp
      (List.getLast?_isSome.mpr hne)
    have hsplit := getLast?_split hr
    have hrev : s.redo_stack.reverse = e :: s.redo_stack.dropLast.reverse := by
      conv_lhs => rw [hsplit]
      simp
    have hcr : Coherent (replayA a0 s.undo_stack) s.redo_stack.reverse :=
      ((coherent_append _ _ _).mp hco).2
    rw [hrev] at hcr
    obtain ⟨hnd, hbef, -⟩ := hcr
    rw [← hasg] at hbef
    have hr1 : s.redo =
        ({ s with
            assignment := setMany s.assignment e.indices e.after,
            redo_stack := s.redo_stack.dropLast,
            undo_stack := s.undo_stack ++ [e] }, some e) := by
      simp only [ProjectState.redo, hr]
    rw [hr1]
    have hu1 : (s.undo_stack ++ [e]).getLast? = some e :=
      List.getLast?_concat _
    simp only [ProjectState.undo, hu1]
    show setMany (setMany s.assignment e.indices e.after) e.indices e.before
        = s.assignment
    rw [hbef, setMany_restore e.indices hnd e.after]
  · intro hu
    simp only [ProjectState.undo, hu, List.getLast?_nil]
  · intro hr
    simp only [ProjectState.redo, hr, List.getLast?_nil]

/-- Witness for `undo_redo_pair_spec`: a concrete reachable state with one
edit on the undo stack. -/
theorem undo_redo_pair_spec_witness :
    let ds : DataSet :=
      { ids := [1], x := [0], y := [0], z := [0], box := ⟨0, 1, 0, 1, 0, 0⟩ }
    let s0 : ProjectState :=
      { data := ds, assignment := [0],
        groups := [(1, { gid := 1, name := "g" })] }
    let s1 := assignIndices s0 [0] .add 1
    s1.undo_stack ≠ [] ∧ ((s1.undo).1.redo).1.assignment = s1.assignment := by
  intro ds s0 s1
  have hr : Reachable s1 :=
    Reachable.assign s0 [0] .add 1
      (Reachable.init ds [0] [(1, { gid := 1, name := "g" })] 100 {} true true)
  exact ⟨by decide, (undo_redo_pair_spec s1 hr).1 (by decide)⟩

/-- Counterexample to C1 as stated: on the reachable state obtained by one
assignment mutation followed by one `undo`, the undo stack is empty but
the redo stack is not, so `undo()` is a no-op while `redo()` replays the
edit — the pair `undo(); redo()` does *not* leave the assignment array
unchanged. -/
theorem undo_redo_pair_counterexample :
    let ds : DataSet :=
      { ids := [1], x := [0], y := [0], z := [0], box := ⟨0, 1, 0, 1, 0, 0⟩ }
    let s0 : ProjectState :=
      { data := ds, assignment := [0],
        groups := [(1, { gid := 1, name := "g" })] }
    let s2 := ((assignIndices s0 [0] .add 1).undo).1
    Reachable s2 ∧ ((s2.undo).1.redo).1.assignment ≠ s2.assignment := by
  intro ds s0 s2
  constructor
  · exact Reachable.undo _ (Reachable.assign s0 [0] .add 1
      (Reachable.init ds [0] [(1, { gid := 1, name := "g" })] 100 {} true true))
  · decide

theorem drop_one_concat {α : Type} (l : List α) (e : α) (h : l ≠ []) :
    (l ++ [e]).drop 1 = l.drop 1 ++ [e] := by
  cases l with
  | nil => exact absurd rfl h
  | cons x xs => rfl

/-- The total history size never exceeds `max_history` on reachable
states. -/
theorem reachable_hist_sum (s : ProjectState) (h : Reachable s) :
    s.undo_stack.length + s.redo_stack.length ≤ s.max_history := by
  induction h with
  | init ds asg groups max br f1 f2 => simp
  | assign s idx0 m g _ ih =>
    have main : ∀ f desc,
        (pushAssign s (npUnique idx0) (readMany s.assignment (npUnique idx0))
          ((readMany s.assignment (npUnique idx0)).map f) desc).undo_stack.length +
        (pushAssign s (npUnique idx0) (readMany s.assignment (npUnique idx0))
          ((readMany s.assignment (npUnique idx0)).map f) desc).redo_stack.length ≤
        s.max_history := by
      intro f desc
      set e : Edit := ⟨npUnique idx0, readMany s.assignment (npUnique idx0),
        (readMany s.assignment (npUnique idx0)).map f, desc⟩ with he
      have hundo : (pushAssign s (npUnique idx0)
          (readMany s.assignment (npUnique idx0))
          ((readMany s.assignment (npUnique idx0)).map f) desc).undo_stack =
          if s.max_history < (s.undo_stack ++ [e]).length then
            (s.undo_stack ++ [e]).drop 1
          else s.undo_stack ++ [e] := rfl
      have hredo : (pushAssign s (npUnique idx0)
          (readMany s.assignment (npUnique idx0))
          ((readMany s.assignment (npUnique idx0)).map f) desc).redo_stack =
          [] := rfl
      rw [hundo, hredo]
      by_cases hlen : s.max_history < (s.undo_stack ++ [e]).length
      · rw [if_pos hlen]
        simp only [List.length_nil, Nat.add_zero, List.length_drop,
          List.length_append, List.length_cons]
        omega
      · rw [if_neg hlen]
        simp only [List.length_append, List.length_cons, List.length_nil] at *
        omega
    cases m with
    | remove => rw [assign_remove_eq]; exact main _ _
    | add =>
      by_cases hg : (g == 0) = true
      · have heq : assignIndices s idx0 .add g = s := by
          simp only [assignIndices]
          rw [if_pos hg]
        rw [heq]
        exact ih
      · rw [assign_add_eq s idx0 g hg]; exact main _ _
    | toggle =>
      by_cases hg : (g == 0) = true
      · have heq : assignIndices s idx0 .toggle g = s := by
          simp only [assignIndices]
          rw [if_pos hg]
        rw [heq]
        exact ih
      · rw [assign_toggle_eq s idx0 g hg]; exact main _ _
  | undo s _ ih =>
    match hu : s.undo_stack.getLast? with
    | none =>
      rw [ProjectState.undo, hu]
      exact ih
    | some e =>
      rw [ProjectState.undo, hu]
      have hlen1 : s.undo_stack.length = s.undo_stack.dropLast.length + 1 := by
        conv_lhs => rw [getLast?_split hu]
        simp
      simp only [List.length_append, List.length_cons, List.length_nil]
      omega
  | redo s _ ih =>
    match hr : s.redo_stack.getLast? with
    | none =>
      rw [ProjectState.redo, hr]
      exact ih
    | some e =>
      rw [ProjectState.redo, hr]
      have hlen1 : s.redo_stack.length = s.redo_stack.dropLast.length + 1 := by
        conv_lhs => rw [getLast?_split hr]
        simp
      simp only [List.length_append, List.length_cons, List.length_nil]
      omega

/-- C7: on every reachable state the undo stack holds at most `max_history`
edits; a mutation that would push it past `max_history` evicts exactly the
oldest (bottom) entry, keeping the new edit on top; and every effective
mutation clears the redo stack. -/
theorem history_bound_spec :
    (∀ s : ProjectState, Reachable s →
      s.undo_stack.length ≤ s.max_history) ∧
    (∀ (s : ProjectState) (idx0 : List Nat) (m : AMode) (g : Int),
      (m = .remove ∨ ¬ (g == 0) = true) → s.undo_stack ≠ [] →
      s.max_history < s.undo_stack.length + 1 →
      ∃ e : Edit, (assignIndices s idx0 m g).undo_stack =
        s.undo_stack.drop 1 ++ [e]) ∧
    (∀ (s : ProjectState) (idx0 : List Nat) (m : AMode) (g : Int),
      (m = .remove ∨ ¬ (g == 0) = true) →
      (assignIndices s idx0 m g).redo_stack = []) := by
  refine ⟨?_, ?_, ?_⟩
  · intro s h
    exact Nat.le_trans (Nat.le_add_right _ _) (reachable_hist_sum s h)
  · intro s idx0 m g hm hne hlen
    have main : ∀ f desc,
        ∃ e : Edit, (pushAssign s (npUnique idx0)
          (readMany s.assignment (npUnique idx0))
          ((readMany s.assignment (npUnique idx0)).map f) desc).undo_stack =
          s.undo_stack.drop 1 ++ [e] := by
      intro f desc
      set e : Edit := ⟨npUnique idx0, readMany s.assignment (npUnique idx0),
        (readMany s.assignment (npUnique idx0)).map f, desc⟩ with he
      refine ⟨e, ?_⟩
      have hundo : (pushAssign s (npUnique idx0)
          (readMany s.assignment (npUnique idx0))
          ((readMany s.assignment (npUnique idx0)).map f) desc).undo_stack =
          if s.max_history < (s.undo_stack ++ [e]).length then
            (s.undo_stack ++ [e]).drop 1
          else s.undo_stack ++ [e] := rfl
      have hlen' : s.max_history < (s.undo_stack ++ [e]).length := by
        simpa using hlen
      rw [hundo, if_pos hlen', drop_one_concat _ _ hne]
    cases m with
    | remove => rw [assign_remove_eq]; exact main _ _
    | add =>
      have hg : ¬ (g == 0) = true := by
        rcases hm with hc | hg
        · exact absurd hc (by simp)
        · exact hg
      rw [assign_add_eq s idx0 g hg]
      exact main _ _
    | toggle =>
      have hg : ¬ (g == 0) = true := by
        rcases hm with hc | hg
        · exact absurd hc (by simp)
        · exact hg
      rw [assign_toggle_eq s idx0 g hg]
      exact main _ _
  · intro s idx0 m g hm
    cases m with
    | remove => rw [assign_remove_eq]; rfl
    | add =>
      have hg : ¬ (g == 0) = true := by
        rcases hm with hc | hg
        · exact absurd hc (by simp)
        · exact hg
      rw [assign_add_eq s idx0 g hg]
      rfl
    | toggle =>
      have hg : ¬ (g == 0) = true := by
        rcases hm with hc | hg
        · exact absurd hc (by simp)
        · exact hg
      rw [assign_toggle_eq s idx0 g hg]
      rfl

/-- Witness for `history_bound_spec` at a concrete reachable state and a
concrete overflowing mutation (`max_history = 1`). -/
theorem history_bound_spec_witness :
    let ds : DataSet :=
      { ids := [1], x := [0], y := [0], z := [0], box := ⟨0, 1, 0, 1, 0, 0⟩ }
    let s0 : ProjectState :=
      { data := ds, assignment := [0],
        groups := [(1, { gid := 1, name := "g" })], max_history := 1 }
    let s1 := assignIndices s0 [0] .add 1
    (s1.undo_stack.length ≤ s1.max_history) ∧
    (∃ e : Edit, (assignIndices s1 [0] .remove 1).undo_stack =
      s1.undo_stack.drop 1 ++ [e]) ∧
    (assignIndices s1 [0] .remove 1).redo_stack = [] := by
  intro ds s0 s1
  have hr : Reachable s1 :=
    Reachable.assign s0 [0] .add 1
      (Reachable.init ds [0] [(1, { gid := 1, name := "g" })] 1 {} true true)
  refine ⟨history_bound_spec.1 s1 hr, ?_, ?_⟩
  · exact history_bound_spec.2.1 s1 [0] .remove 1 (Or.inl rfl) (by decide)
      (by decide)
  · exact history_bound_spec.2.2 s1 [0] .remove 1 (Or.inl rfl)

/-! ### Project serialization (`src/dbi/core/project_io.py`)

The JSON document is modelled field-for-field; JSON numbers carry the
rationals/integers of the model losslessly, and the caller-owned view
state bucket is an opaque type parameter. -/

structure DocGroup where
  gid : Int
  name : String
  color : List Int
  direction : List ℚ
  deriving Repr, DecidableEq

structure Doc (U : Type) where
  ids : List Int
  x : List ℚ
  y : List ℚ
  z : List ℚ
  box : Box
  assignment : List Int
  groups : List DocGroup
  breather : BreatherParams
  apply_localizing : Bool
  preserve_base_selection : Bool
  ui : U

/-- `save_project`: serialize every field; groups are written as an
ordered list following the dict's insertion order. -/
def save_project {U : Type} (state : ProjectState) (ui_state : U) : Doc U :=
  { ids := state.data.ids, x := state.data.x, y := state.data.y,
    z := state.data.z, box := state.data.box,
    assignment := state.assignment,
    groups := state.groups.map
      (fun p => ⟨p.2.gid, p.2.name, p.2.color, p.2.direction⟩),
    breather := state.breather,
    apply_localizing := state.apply_localizing,
    preserve_base_selection := state.preserve_base_selection,
    ui := ui_state }

/-- `load_project`: rebuild the dataset, overwrite the assignment, insert
the groups in document-list order (Python's `add_group` followed by the
direction assignment mutates the stored object, so one insertion carrying
the direction is equivalent), and read parameters, flags and the view
bucket.  The fresh `ProjectState` keeps default (empty) history stacks. -/
def load_project {U : Type} (d : Doc U) : ProjectState × U :=
  ({ data := ⟨d.ids, d.x, d.y, d.z, d.box⟩,
     assignment := d.assignment,
     groups := d.groups.foldl
       (fun acc g => dictInsert acc g.gid
         { gid := g.gid, name := g.name, color := g.color,
           direction := g.direction }) [],
     breather := d.breather,
     apply_localizing := d.apply_localizing,
     preserve_base_selection := d.preserve_base_selection }, d.ui)

theorem hasKey_eq_false (m : List (Int × Group)) (k : Int)
    (h : k ∉ m.map Prod.fst) : hasKey m k = false := by
  rw [hasKey]
  rw [List.any_eq_false]
  intro p hp
  simp only [beq_iff_eq]
  intro hc
  exact h (hc ▸ List.mem_map_of_mem Prod.fst hp)

theorem foldl_dictInsert_fresh (l acc : List (Int × Group))
    (hids : ∀ p ∈ l, p.2.gid = p.1)
    (hnd : ((acc ++ l).map Prod.fst).Nodup) :
    (l.map (fun p : Int × Group =>
        (⟨p.2.gid, p.2.name, p.2.color, p.2.direction⟩ : DocGroup))).foldl
      (fun acc g => dictInsert acc g.gid
        { gid := g.gid, name := g.name, color := g.color,
          direction := g.direction }) acc = acc ++ l := by
  induction l generalizing acc with
  | nil => simp
  | cons p rest ih =>
    obtain ⟨k, g⟩ := p
    simp only [List.map_cons, List.foldl_cons]
    have hkey : g.gid = k := hids (k, g) (List.mem_cons_self _ _)
    have hfresh : k ∉ acc.map Prod.fst := by
      intro hc
      have hnd' : (acc.map Prod.fst ++ k :: rest.map Prod.fst).Nodup := by
        simpa using hnd
      rcases List.nodup_append.mp hnd' with ⟨-, -, hdis⟩
      exact hdis hc (List.mem_cons_self _ _)
    have hins : dictInsert acc g.gid { gid := g.gid, name := g.name, color := g.color, direction := g.direction } = acc ++ [(k, g)] := by
      obtain ⟨g1, g2, g3, g4⟩ := g
      simp only at hkey
      subst hkey
      rw [dictInsert, hasKey_eq_false acc g1 hfresh]
      simp
    rw [hins, ih (acc ++ [(k, g)])
      (fun q hq => hids q (List.mem_cons_of_mem (k, g) hq))
      (by simpa using hnd), List.append_assoc]
    rfl

/-- C2: `load_project ∘ save_project` restores the dataset, the assignment
array, the groups (in insertion order, rebuilt from the document's ordered
group list), the localization parameters and both mode flags, and passes
the view-state bucket through, for every state whose group table is
well-formed (each stored group records its own key and keys are unique). -/
theorem save_load_roundtrip {U : Type} (s : ProjectState) (ui : U)
    (hids : ∀ p ∈ s.groups, p.2.gid = p.1)
    (hnd : (s.groups.map Prod.fst).Nodup) :
    (load_project (save_project s ui)).1.data = s.data ∧
    (load_project (save_project s ui)).1.assignment = s.assignment ∧
    (load_project (save_project s ui)).1.groups = s.groups ∧
    (load_project (save_project s ui)).1.breather = s.breather ∧
    (load_project (save_project s ui)).1.apply_localizing =
      s.apply_localizing ∧
    (load_project (save_project s ui)).1.preserve_base_selection =
      s.preserve_base_selection ∧
    (load_project (save_project s ui)).2 = ui := by
  refine ⟨rfl, rfl, ?_, rfl, rfl, rfl, rfl⟩
  show (save_project s ui).groups.foldl _ [] = s.groups
  rw [save_project]
  have := foldl_dictInsert_fresh s.groups [] hids (by simpa using hnd)
  simpa using this

/-- Witness for `save_load_roundtrip` at a concrete state. -/
theorem save_load_roundtrip_witness :
    let ds : DataSet :=
      { ids := [1, 2], x := [0, 1], y := [0, 2], z := [0, 0],
        box := ⟨0, 4, 0, 4, 0, 0⟩ }
    let s : ProjectState :=
      { data := ds, assignment := [0, 1],
        groups := [(1, { gid := 1, name := "a" }),
                   (3, { gid := 3, name := "c", color := [1, 2, 3, 255] })] }
    (∀ p ∈ s.groups, p.2.gid = p.1) ∧ (s.groups.map Prod.fst).Nodup ∧
      (load_project (save_project s "viewstate")).1.groups = s.groups := by
  intro ds s
  refine ⟨by decide, by decide, ?_⟩
  exact (save_load_roundtrip s "viewstate" (by decide) (by decide)).2.2.1

/-! ### LAMMPS data-file scanner (`src/dbi/core/lammps_parser.py`)

Text lines are modelled as `List Char` (Lean `String` primitives do not
reduce in the kernel); the Python string operations are mirrored on
character lists: `split("#", 1)[0]` is take-until-`#`, `strip` drops
leading and trailing whitespace, `lower` maps `Char.toLower`, and
`split()` tokenizes on whitespace runs. -/

/-- Python `line.split("#", 1)[0]`. -/
def stripComment (l : List Char) : List Char :=
  l.takeWhile (fun c => c ≠ '#')

/-- Python `str.strip()`. -/
def trimChars (l : List Char) : List Char :=
  ((l.dropWhile Char.isWhitespace).reverse.dropWhile Char.isWhitespace).reverse

/-- Python `str.lower()`. -/
def lowerChars (l : List Char) : List Char :=
  l.map Char.toLower

/-- Python `str.split()` (whitespace tokenization). -/
def wordTokens (l : List Char) : List (List Char) :=
  (l.splitOnP Char.isWhitespace).filter (fun t => t ≠ [])

/-- `HEADER_KEYS` from the parser, verbatim. -/
def HEADER_KEYS : List (List Char) :=
  ["atoms".toList, "bonds".toList, "angles".toList, "dihedrals".toList,
   "impropers".toList,
   "velocities".toList, "masses".toList,
   "pair coeffs".toList, "bond coeffs".toList, "angle coeffs".toList,
   "dihedral coeffs".toList, "improper coeffs".toList,
   "ellipsoids".toList, "lines".toList, "triangles".toList,
   "atom types".toList, "bond types".toList, "angle types".toList,
   "dihedral types".toList, "improper types".toList,
   "groups".toList, "fixes".toList]

/-- Body of `_iter_atoms_block`'s second loop: collect lines until a
nonblank line whose first comment-stripped lowercased token is a member of
`HEADER_KEYS` other than `"atoms"`. -/
def collectBlock : List (List Char) → List (List Char)
  | [] => []
  | l :: ls =>
    let s := trimChars l
    if s ≠ [] then
      let bare := lowerChars (trimChars (stripComment s))
      let fw := (wordTokens bare).headD []
      if fw ∈ HEADER_KEYS ∧ fw ≠ "atoms".toList then []
      else l :: collectBlock ls
    else l :: collectBlock ls

/-- `_iter_atoms_block`: skip blank lines after the section header, then
collect the candidate block. -/
def iterAtomsBlock (lines : List (List Char)) (start : Nat) :
    List (List Char) :=
  collectBlock ((lines.drop (start + 1)).dropWhile
    (fun l => trimChars l = []))

/-- C5: divergence witness.  `HEADER_KEYS` deliberately contains the
multi-word `*-coeffs` / `*-types` labels, and a single-word terminator
(`Velocities`) does end the block; but the terminator test compares only
the line's *first* whitespace token against the key set, and a single
token can never equal a multi-word key, so a `Pair Coeffs` header fails
to terminate the block and its payload lines are swept into the candidate
atom block. -/
theorem iter_atoms_block_multiword_divergence :
    ("pair coeffs".toList ∈ HEADER_KEYS) ∧
    (iterAtomsBlock
      ["Atoms".toList, "".toList, "1 1 0.0 0.0 0.0".toList,
       "Velocities".toList, "1 0.5 1.0 2.5".toList] 0 =
      ["1 1 0.0 0.0 0.0".toList]) ∧
    (iterAtomsBlock
      ["Atoms".toList, "".toList, "1 1 0.0 0.0 0.0".toList,
       "Pair Coeffs".toList, "1 0.5 1.0 2.5".toList] 0 =
      ["1 1 0.0 0.0 0.0".toList, "Pair Coeffs".toList,
       "1 0.5 1.0 2.5".toList]) := by
  refine ⟨by decide, by decide, by decide⟩

/-! ### Line-band selection (`MainWindow.on_mouse_clicked`, hline/vline
branch, `src/dbi/ui/main_window.py` 951–1006)

`np.argsort` is modelled as a deterministic (stable) sort of positions by
key; boolean-mask indexing with `np.arange(n) % N == off` is modelled as
filtering the enumerated list on position. -/

/-- Insert a position into a list sorted by `key`. -/
def insertPosBy (key : Nat → ℚ) (i : Nat) : List Nat → List Nat
  | [] => [i]
  | j :: js => if key i ≤ key j then i :: j :: js else j :: insertPosBy key i js

/-- Sort positions by `key` (insertion sort; stable). -/
def sortByKey (key : Nat → ℚ) : List Nat → List Nat
  | [] => []
  | i :: is => insertPosBy key i (sortByKey key is)

/-- `np.argsort(vals)`: the permutation of `0..len-1` that sorts `vals`. -/
def argsortQ (vals : List ℚ) : List Nat :=
  sortByKey (fun k => vals.getD k 0) (List.range vals.length)

/-- Selection of the entries at positions `p` with `p % N = off` —
the meaning of `arr[np.arange(arr.size) % N == off]`. -/
def posFilter (l : List Nat) (N off : Nat) : List Nat :=
  ((l.enum).filter (fun p => p.1 % N = off)).map Prod.snd

/-- `MainWindow._apply_circle_constraint`; `none` models a disabled mask,
and a non-positive radius is a pass-through. -/
def applyCircleConstraint (ds : DataSet) (circle : Option (ℚ × ℚ × ℚ))
    (idx : List Nat) : List Nat :=
  match circle with
  | none => idx
  | some c =>
    if c.2.2 > 0 then
      idx.filter (fun i =>
        (ds.x.getD i 0 - c.1) * (ds.x.getD i 0 - c.1) +
          (ds.y.getD i 0 - c.2.1) * (ds.y.getD i 0 - c.2.1) ≤ c.2.2 * c.2.2)
    else idx

/-- `np.abs` on one value. -/
def ratAbs (q : ℚ) : ℚ := if q < 0 then -q else q

/-- `np.nonzero(np.abs(y - y0) <= R)[0]`: the ascending indices of the
horizontal band hits. -/
def bandIndicesH (ds : DataSet) (y0 R : ℚ) : List Nat :=
  (List.range ds.y.length).filter (fun i => ratAbs (ds.y.getD i 0 - y0) ≤ R)

/-- `np.nonzero(np.abs(x - x0) <= R)[0]`: the ascending indices of the
vertical band hits. -/
def bandIndicesV (ds : DataSet) (x0 R : ℚ) : List Nat :=
  (List.range ds.x.length).filter (fun i => ratAbs (ds.x.getD i 0 - x0) ≤ R)

/-- The `hline` branch: band mask, circle constraint, argsort by `x`,
periodic decimation.  Returns the kept hits (assigned to the active
group) and the value stored as `last_line_indices` (the code stores
`hits.copy()`). -/
def lineSelectH (ds : DataSet) (circle : Option (ℚ × ℚ × ℚ)) (y0 R : ℚ)
    (n0 off0 : Int) : List Nat × List Nat :=
  let N : Nat := (max 1 n0).toNat
  let off : Nat := (off0 % (N : Int)).toNat
  let idx := applyCircleConstraint ds circle (bandIndicesH ds y0 R)
  let order := argsortQ (idx.map (fun i => ds.x.getD i 0))
  let idxSorted := order.map (fun k => idx.getD k 0)
  let hits := posFilter idxSorted N off
  (hits, hits)

/-- The `vline` branch: symmetric, band on `x`, sorted by `y`. -/
def lineSelectV (ds : DataSet) (circle : Option (ℚ × ℚ × ℚ)) (x0 R : ℚ)
    (n0 off0 : Int) : List Nat × List Nat :=
  let N : Nat := (max 1 n0).toNat
  let off : Nat := (off0 % (N : Int)).toNat
  let idx := applyCircleConstraint ds circle (bandIndicesV ds x0 R)
  let order := argsortQ (idx.map (fun i => ds.y.getD i 0))
  let idxSorted := order.map (fun k => idx.getD k 0)
  let hits := posFilter idxSorted N off
  (hits, hits)

theorem mem_insertPosBy (key : Nat → ℚ) (i z : Nat) (l : List Nat) :
    z ∈ insertPosBy key i l ↔ z = i ∨ z ∈ l := by
  induction l with
  | nil => simp [insertPosBy]
  | cons j js ih =>
    by_cases h : key i ≤ key j
    · simp [insertPosBy, h]
    · simp only [insertPosBy, if_neg h, List.mem_cons, ih]
      tauto

theorem insertPosBy_perm (key : Nat → ℚ) (i : Nat) (l : List Nat) :
    (insertPosBy key i l).Perm (i :: l) := by
  induction l with
  | nil => simp [insertPosBy]
  | cons j js ih =>
    by_cases h : key i ≤ key j
    · rw [insertPosBy, if_pos h]
    · rw [insertPosBy, if_neg h]
      exact (List.Perm.cons j ih).trans (List.Perm.swap i j js)

theorem sortByKey_perm (key : Nat → ℚ) (l : List Nat) :
    (sortByKey key l).Perm l := by
  induction l with
  | nil => simp [sortByKey]
  | cons i is ih =>
    exact (insertPosBy_perm key i (sortByKey key is)).trans
      (List.Perm.cons i ih)

theorem insertPosBy_sorted (key : Nat → ℚ) (i : Nat) (l : List Nat)
    (h : l.Sorted (fun a b => key a ≤ key b)) :
    (insertPosBy key i l).Sorted (fun a b => key a ≤ key b) := by
  induction l with
  | nil => simp [insertPosBy]
  | cons j js ih =>
    rw [List.sorted_cons] at h
    by_cases hij : key i ≤ key j
    · rw [insertPosBy, if_pos hij, List.sorted_cons]
      refine ⟨?_, (List.sorted_cons).mpr h⟩
      intro b hb
      rcases List.mem_cons.mp hb with rfl | hb
      · exact hij
      · exact hij.trans (h.1 b hb)
    · have hji : key j ≤ key i := le_of_not_le hij
      rw [insertPosBy, if_neg hij, List.sorted_cons]
      constructor
      · intro b hb
        rcases (mem_insertPosBy key i b js).mp hb with rfl | hb
        · exact hji
        · exact h.1 b hb
      · exact ih h.2

theorem sortByKey_sorted (key : Nat → ℚ) (l : List Nat) :
    (sortByKey key l).Sorted (fun a b => key a ≤ key b) := by
  induction l with
  | nil => simp [sortByKey]
  | cons i is ih => exact insertPosBy_sorted key i _ ih

theorem map_insertPosBy (g : Nat → Nat) (keyp key : Nat → ℚ) (i : Nat)
    (l : List Nat) (hk : ∀ j ∈ i :: l, keyp j = key (g j)) :
    (insertPosBy keyp i l).map g = insertPosBy key (g i) (l.map g) := by
  induction l with
  | nil => simp [insertPosBy]
  | cons j js ih =>
    have hki : keyp i = key (g i) := hk i (List.mem_cons_self _ _)
    have hkj : keyp j = key (g j) :=
      hk j (List.mem_cons_of_mem _ (List.mem_cons_self _ _))
    by_cases h : keyp i ≤ keyp j
    · rw [insertPosBy, if_pos h]
      simp only [List.map_cons]
      rw [insertPosBy, if_pos (by rwa [hki, hkj] at h)]
    · rw [insertPosBy, if_neg h]
      simp only [List.map_cons]
      rw [insertPosBy, if_neg (by rwa [hki, hkj] at h),
        ih (fun a ha => hk a (by
          rcases List.mem_cons.mp ha with rfl | ha
          · exact List.mem_cons_self _ _
          · exact List.mem_cons_of_mem _ (List.mem_cons_of_mem _ ha)))]

theorem map_sortByKey (g : Nat → Nat) (keyp key : Nat → ℚ) (l : List Nat)
    (hk : ∀ j ∈ l, keyp j = key (g j)) :
    (sortByKey keyp l).map g = sortByKey key (l.map g) := by
  induction l with
  | nil => simp [sortByKey]
  | cons i is ih =>
    rw [sortByKey, List.map_cons, sortByKey,
      map_insertPosBy g keyp key i (sortByKey keyp is) ?_,
      ih (fun a ha => hk a (List.mem_cons_of_mem _ ha))]
    intro a ha
    rcases List.mem_cons.mp ha with rfl | ha
    · exact hk a (List.mem_cons_self _ _)
    · exact hk a (List.mem_cons_of_mem _
        ((sortByKey_perm keyp is).mem_iff.mp ha))

theorem map_getD_range {α : Type} (l : List α) (d : α) :
    (List.range l.length).map (fun k => l.getD k d) = l := by
  apply List.ext_getElem
  · simp
  · intro i h1 h2
    have hi : i < l.length := by simpa using h2
    rw [List.getElem_map, List.getElem_range, List.getD_eq_getElem l d hi]

/-- Gathering a band-index list through `argsort` of its coordinates is
the same as sorting the band indices directly by coordinate. -/
theorem gather_argsort (idx : List Nat) (pos : Nat → ℚ) :
    (argsortQ (idx.map pos)).map (fun k => idx.getD k 0) =
      sortByKey pos idx := by
  rw [argsortQ, List.length_map,
    map_sortByKey (fun k => idx.getD k 0)
      (fun k => (idx.map pos).getD k 0) pos (List.range idx.length) ?_,
    map_getD_range idx 0]
  intro j hj
  exact getD_map pos idx j 0 0 (List.mem_range.mp hj)

theorem posFilter_one (l : List Nat) : posFilter l 1 0 = l := by
  rw [posFilter]
  have h : (l.enum).filter (fun p => p.1 % 1 = 0) = l.enum := by
    rw [List.filter_eq_self]
    intro p _
    simp [Nat.mod_one]
  rw [h, List.enum_map_snd]

theorem posFilter_sublist (l : List Nat) (N off : Nat) :
    (posFilter l N off).Sublist l := by
  rw [posFilter]
  have h2 : ((l.enum).filter (fun p => p.1 % N = off)).Sublist l.enum :=
    List.filter_sublist _
  have h3 := h2.map Prod.snd
  rwa [List.enum_map_snd] at h3

theorem lineSelectH_hits (ds : DataSet) (y0 R : ℚ) (n0 off0 : Int) :
    (lineSelectH ds none y0 R n0 off0).1 =
      posFilter (sortByKey (fun i => ds.x.getD i 0) (bandIndicesH ds y0 R))
        ((max 1 n0).toNat) ((off0 % (((max 1 n0).toNat : Nat) : Int)).toNat) := by
  have h1 : (lineSelectH ds none y0 R n0 off0).1 =
      posFilter ((argsortQ ((bandIndicesH ds y0 R).map
          (fun i => ds.x.getD i 0))).map
        (fun k => (bandIndicesH ds y0 R).getD k 0))
        ((max 1 n0).toNat) ((off0 % (((max 1 n0).toNat : Nat) : Int)).toNat) := rfl
  rw [h1, gather_argsort]

theorem lineSelectV_hits (ds : DataSet) (x0 R : ℚ) (n0 off0 : Int) :
    (lineSelectV ds none x0 R n0 off0).1 =
      posFilter (sortByKey (fun i => ds.y.getD i 0) (bandIndicesV ds x0 R))
        ((max 1 n0).toNat) ((off0 % (((max 1 n0).toNat : Nat) : Int)).toNat) := by
  have h1 : (lineSelectV ds none x0 R n0 off0).1 =
      posFilter ((argsortQ ((bandIndicesV ds x0 R).map
          (fun i => ds.y.getD i 0))).map
        (fun k => (bandIndicesV ds x0 R).getD k 0))
        ((max 1 n0).toNat) ((off0 % (((max 1 n0).toNat : Nat) : Int)).toNat) := rfl
  rw [h1, gather_argsort]

unseal Rat.sub Rat.add Rat.mul Rat.inv in
/-- C9: line selection (no circular mask) keeps exactly the band hits
that, after sorting by their coordinate along the line, sit at 0-indexed
positions `p` with `p % N = offset % N`; the sorted list is a permutation
of the band hits ordered by coordinate; stride 1 keeps every hit; and on
10 collinear points with stride 3, offset 1, exactly sorted positions
{1, 4, 7} survive. -/
theorem line_select_decimation_spec (ds : DataSet) (y0 x0 R : ℚ)
    (n0 off0 : Int) :
    ((lineSelectH ds none y0 R n0 off0).1 =
      posFilter (sortByKey (fun i => ds.x.getD i 0) (bandIndicesH ds y0 R))
        ((max 1 n0).toNat) ((off0 % (((max 1 n0).toNat : Nat) : Int)).toNat)) ∧
    ((sortByKey (fun i => ds.x.getD i 0) (bandIndicesH ds y0 R)).Perm
      (bandIndicesH ds y0 R)) ∧
    ((sortByKey (fun i => ds.x.getD i 0) (bandIndicesH ds y0 R)).Sorted
      (fun a b => ds.x.getD a 0 ≤ ds.x.getD b 0)) ∧
    ((lineSelectH ds none y0 R 1 off0).1 =
      sortByKey (fun i => ds.x.getD i 0) (bandIndicesH ds y0 R)) ∧
    ((lineSelectV ds none x0 R n0 off0).1 =
      posFilter (sortByKey (fun i => ds.y.getD i 0) (bandIndicesV ds x0 R))
        ((max 1 n0).toNat) ((off0 % (((max 1 n0).toNat : Nat) : Int)).toNat)) ∧
    ((sortByKey (fun i => ds.y.getD i 0) (bandIndicesV ds x0 R)).Perm
      (bandIndicesV ds x0 R)) ∧
    ((lineSelectH
        { ids := [1, 2, 3, 4, 5, 6, 7, 8, 9, 10],
          x := [0, 1, 2, 3, 4, 5, 6, 7, 8, 9],
          y := [0, 0, 0, 0, 0, 0, 0, 0, 0, 0],
          z := [0, 0, 0, 0, 0, 0, 0, 0, 0, 0],
          box := ⟨0, 9, 0, 9, 0, 0⟩ } none 0 1 3 1).1 = [1, 4, 7]) := by
  refine ⟨lineSelectH_hits ds y0 R n0 off0, sortByKey_perm _ _,
    sortByKey_sorted _ _, ?_, lineSelectV_hits ds x0 R n0 off0,
    sortByKey_perm _ _, by decide⟩
  rw [lineSelectH_hits ds y0 R 1 off0]
  have hN : ((max 1 (1 : Int)).toNat : Nat) = 1 := rfl
  have hoff : ((off0 % (((1 : Nat) : Nat) : Int)).toNat : Nat) = 0 := by
    rw [show (((1 : Nat) : Nat) : Int) = (1 : Int) from rfl, Int.emod_one]
    rfl
  rw [hN, hoff]
  exact posFilter_one _

unseal Rat.sub Rat.add Rat.mul Rat.inv in
/-- C4 counterexample: with two collinear points and stride 2 the kept
subset is `[0]` while the pre-decimation sorted band-hit list is
`[0, 1]`; the code stores the former as the "last line selection". -/
theorem last_line_counterexample :
    let ds : DataSet :=
      { ids := [1, 2], x := [0, 1], y := [0, 0], z := [0, 0],
        box := ⟨0, 1, 0, 1, 0, 0⟩ }
    (lineSelectH ds none 0 1 2 0).2 = [0] ∧
    sortByKey (fun i => ds.x.getD i 0) (bandIndicesH ds 0 1) = [0, 1] ∧
    (lineSelectH ds none 0 1 2 0).2 ≠
      sortByKey (fun i => ds.x.getD i 0) (bandIndicesH ds 0 1) := by
  intro ds
  refine ⟨by decide, by decide, by decide⟩

/-- C4 (amended): after a horizontal or vertical line selection, the
stored "last line selection" equals the *decimated kept subset* — exactly
the index sequence the selection returned, which is the periodic
decimation of the band hits sorted by coordinate along the line and is
itself sorted by that coordinate — not the pre-decimation sorted set. -/
theorem last_line_stored_spec (ds : DataSet) (y0 x0 R : ℚ)
    (n0 off0 : Int) :
    ((lineSelectH ds none y0 R n0 off0).2 =
      (lineSelectH ds none y0 R n0 off0).1) ∧
    ((lineSelectH ds none y0 R n0 off0).2 =
      posFilter (sortByKey (fun i => ds.x.getD i 0) (bandIndicesH ds y0 R))
        ((max 1 n0).toNat) ((off0 % (((max 1 n0).toNat : Nat) : Int)).toNat)) ∧
    (((lineSelectH ds none y0 R n0 off0).2).Sorted
      (fun a b => ds.x.getD a 0 ≤ ds.x.getD b 0)) ∧
    ((lineSelectV ds none x0 R n0 off0).2 =
      (lineSelectV ds none x0 R n0 off0).1) ∧
    ((lineSelectV ds none x0 R n0 off0).2 =
      posFilter (sortByKey (fun i => ds.y.getD i 0) (bandIndicesV ds x0 R))
        ((max 1 n0).toNat) ((off0 % (((max 1 n0).toNat : Nat) : Int)).toNat)) ∧
    (((lineSelectV ds none x0 R n0 off0).2).Sorted
      (fun a b => ds.y.getD a 0 ≤ ds.y.getD b 0)) := by
  refine ⟨rfl, lineSelectH_hits ds y0 R n0 off0, ?_, rfl,
    lineSelectV_hits ds x0 R n0 off0, ?_⟩
  · rw [show (lineSelectH ds none y0 R n0 off0).2 =
      (lineSelectH ds none y0 R n0 off0).1 from rfl,
      lineSelectH_hits ds y0 R n0 off0]
    exact (sortByKey_sorted _ _).sublist (posFilter_sublist _ _ _)
  · rw [show (lineSelectV ds none x0 R n0 off0).2 =
      (lineSelectV ds none x0 R n0 off0).1 from rfl,
      lineSelectV_hits ds x0 R n0 off0]
    exact (sortByKey_sorted _ _).sublist (posFilter_sublist _ _ _)

/-! ### Center-expression evaluation
(`MainWindow.on_pick_center_dialog._eval_expr`,
`src/dbi/ui/main_window.py` 1197–1249)

The dialog evaluates the expression with Python's
`eval(expr, {"__builtins__": {}}, {"pos": pos, "np": np})`: the *only*
resolvable identifiers are `pos` and `np` (empty builtins make any other
name a `NameError`), but the whole numpy module is exposed.  The embedding
models the fragment of Python/numpy semantics these expressions exercise:
numeric literals, the four arithmetic operators (with scalar/array
broadcasting), list literals of numbers, `pos(id)`, the name `np` and its
`array` attribute, and Python's *lazy* constructs — the short-circuit
boolean operators `or`/`and` and the conditional expression
`a if c else b`, which evaluate with Python truthiness and may leave
subexpressions (and the names inside them) unevaluated.  Every exception
is caught by the dialog, which then shows an error and leaves the center
unchanged — modelled by `Except`. -/

inductive BOp where
  | add
  | sub
  | mul
  | div
  deriving Repr, DecidableEq

inductive PExpr where
  | num (q : ℚ)
  | name (s : String)
  | attr (e : PExpr) (fld : String)
  | call1 (f : PExpr) (arg : PExpr)
  | listLit (qs : List ℚ)
  | binop (op : BOp) (a b : PExpr)
  /-- Python `a or b` (short-circuit). -/
  | orElse (a b : PExpr)
  /-- Python `a and b` (short-circuit). -/
  | andAlso (a b : PExpr)
  /-- Python `a if c else b` (only the taken branch is evaluated). -/
  | cond (a c b : PExpr)
  deriving Repr, DecidableEq

inductive PVal where
  | scalar (q : ℚ)
  | arr (v : List ℚ)
  | pyNums (v : List ℚ)
  | npModule
  | posFn
  | npArrayFn
  deriving Repr, DecidableEq

inductive PErr where
  | nameError
  | typeError
  | unknownAtomId
  | zeroDivision
  | unsupported
  | notNumeric
  | tooFewComponents
  /-- numpy's "truth value of an array with more than one element is
  ambiguous" `ValueError`. -/
  | ambiguousTruth
  deriving Repr, DecidableEq

/-- Python truthiness of the modelled values: numbers are truthy iff
nonzero, lists iff nonempty, modules and functions always; a numpy array
is truthy by its sole element if it has exactly one, and raises for more
than one. -/
def truthy : PVal → Except PErr Bool
  | .scalar q => .ok (q != 0)
  | .arr v =>
    match v with
    | [] => .ok false
    | [x] => .ok (x != 0)
    | _ => .error .ambiguousTruth
  | .pyNums v => .ok (! v.isEmpty)
  | .npModule => .ok true
  | .posFn => .ok true
  | .npArrayFn => .ok true

/-- Python `int()` truncation toward zero. -/
def ratTrunc (q : ℚ) : Int := q.num.tdiv q.den

/-- The `id_to_index` dict comprehension: the *last* occurrence of a
duplicate id wins. -/
def idToIndex (ds : DataSet) (aid : Int) : Option Nat :=
  ((ds.ids.enum.filter (fun p => p.2 = aid)).getLast?).map Prod.fst

/-- The local `pos` closure: resolve an atom id to its (x, y) pair. -/
def posLookup (ds : DataSet) (q : ℚ) : Except PErr PVal :=
  match idToIndex ds (ratTrunc q) with
  | none => .error .unknownAtomId
  | some idx => .ok (.arr [ds.x.getD idx 0, ds.y.getD idx 0])

def scalarOp (op : BOp) (x y : ℚ) : Except PErr ℚ :=
  match op with
  | .add => .ok (x + y)
  | .sub => .ok (x - y)
  | .mul => .ok (x * y)
  | .div => if y = 0 then .error .zeroDivision else .ok (x / y)

def evalBinop (op : BOp) (a b : PVal) : Except PErr PVal :=
  match a, b with
  | .scalar x, .scalar y => (scalarOp op x y).map .scalar
  | .arr v, .scalar y =>
    (v.mapM (fun x => scalarOp op x y)).map .arr
  | .scalar x, .arr w =>
    (w.mapM (fun y => scalarOp op x y)).map .arr
  | .arr v, .arr w =>
    if v.length = w.length then
      ((v.zip w).mapM (fun p => scalarOp op p.1 p.2)).map .arr
    else .error .typeError
  | _, _ => .error .unsupported

/-- Evaluation of the expression by the host evaluator with environment
`{"pos": pos, "np": np}` and empty builtins. -/
def evalE (ds : DataSet) : PExpr → Except PErr PVal
  | .num q => .ok (.scalar q)
  | .name s =>
    if s = "pos" then .ok .posFn
    else if s = "np" then .ok .npModule
    else .error .nameError
  | .attr e fld => do
    let v ← evalE ds e
    match v, fld with
    | .npModule, "array" => .ok .npArrayFn
    | _, _ => .error .unsupported
  | .call1 f a => do
    let vf ← evalE ds f
    let va ← evalE ds a
    match vf, va with
    | .posFn, .scalar q => posLookup ds q
    | .npArrayFn, .pyNums v => .ok (.arr v)
    | .npArrayFn, .arr v => .ok (.arr v)
    | _, _ => .error .typeError
  | .listLit qs => .ok (.pyNums qs)
  | .binop op a b => do
    let va ← evalE ds a
    let vb ← evalE ds b
    evalBinop op va vb
  | .orElse a b => do
    let va ← evalE ds a
    let t ← truthy va
    if t then .ok va else evalE ds b
  | .andAlso a b => do
    let va ← evalE ds a
    let t ← truthy va
    if t then evalE ds b else .ok va
  | .cond a c b => do
    let vc ← evalE ds c
    let t ← truthy vc
    if t then evalE ds a else evalE ds b

/-- `np.asarray(res, dtype=float).reshape(-1)`. -/
def toVec : PVal → Except PErr (List ℚ)
  | .scalar q => .ok [q]
  | .arr v => .ok v
  | .pyNums v => .ok v
  | _ => .error .notNumeric

/-- The dialog's `_eval_expr`: evaluate, convert to a flat numeric vector,
require at least two components, return the new center; any error leaves
the center unset. -/
def evalCenter (ds : DataSet) (e : PExpr) : Except PErr (ℚ × ℚ) := do
  let v ← evalE ds e
  let vec ← toVec v
  if 2 ≤ vec.length then .ok (vec.getD 0 0, vec.getD 1 0)
  else .error .tooFewComponents

/-- Names referenced by an expression. -/
def freeNames : PExpr → List String
  | .num _ => []
  | .name s => [s]
  | .attr e _ => freeNames e
  | .call1 f a => freeNames f ++ freeNames a
  | .listLit _ => []
  | .binop _ a b => freeNames a ++ freeNames b
  | .orElse a b => freeNames a ++ freeNames b
  | .andAlso a b => freeNames a ++ freeNames b
  | .cond a c b => freeNames a ++ freeNames c ++ freeNames b

/-- The claim's trigger: the expression contains an identifier, attribute
access, or call other than the single function `pos`. -/
def usesBeyondPos : PExpr → Bool
  | .num _ => false
  | .name s => s != "pos"
  | .attr _ _ => true
  | .call1 f a =>
    (match f with
     | .name s => s != "pos"
     | _ => true) || usesBeyondPos f || usesBeyondPos a
  | .listLit _ => false
  | .binop _ a b => usesBeyondPos a || usesBeyondPos b
  | .orElse a b => usesBeyondPos a || usesBeyondPos b
  | .andAlso a b => usesBeyondPos a || usesBeyondPos b
  | .cond a c b => usesBeyondPos a || usesBeyondPos c || usesBeyondPos b

/-- The expression uses none of Python's lazy constructs (`or`, `and`,
conditional expressions): every subexpression of a strict expression is
evaluated, so an exception anywhere inside propagates out. -/
def isStrict : PExpr → Bool
  | .num _ => true
  | .name _ => true
  | .attr e _ => isStrict e
  | .call1 f a => isStrict f && isStrict a
  | .listLit _ => true
  | .binop _ a b => isStrict a && isStrict b
  | .orElse _ _ => false
  | .andAlso _ _ => false
  | .cond _ _ _ => false

/-- C6 counterexample: `np.array([3.0, 4.0])` contains an identifier, an
attribute access and a call other than `pos`, yet it evaluates
successfully and sets the center to (3, 4) — the environment passed to
the host evaluator exposes the whole numpy module as `np`. -/
theorem center_expr_counterexample :
    let ds : DataSet :=
      { ids := [1], x := [5], y := [6], z := [0], box := ⟨0, 9, 0, 9, 0, 0⟩ }
    let e : PExpr := .call1 (.attr (.name "np") "array") (.listLit [3, 4])
    usesBeyondPos e = true ∧ evalCenter ds e = .ok (3, 4) := by
  intro ds e
  exact ⟨rfl, rfl⟩

/-- In a strict expression (no `or`/`and`/conditional), every
subexpression is evaluated, so an identifier other than `pos`/`np`
anywhere inside makes the whole evaluation raise. -/
theorem evalE_error_of_bad_name (ds : DataSet) (e : PExpr)
    (hst : isStrict e = true) (s : String)
    (hs : s ∈ freeNames e) (h1 : s ≠ "pos") (h2 : s ≠ "np") :
    ∃ err, evalE ds e = .error err := by
  induction e with
  | num q => simp [freeNames] at hs
  | name t =>
    rw [freeNames] at hs
    rcases List.mem_singleton.mp hs with rfl
    refine ⟨.nameError, ?_⟩
    rw [evalE, if_neg h1, if_neg h2]
  | attr e fld ih =>
    rw [isStrict] at hst
    rw [freeNames] at hs
    obtain ⟨err, he⟩ := ih hst hs
    exact ⟨err, by rw [evalE, he]; rfl⟩
  | call1 f a ihf iha =>
    rw [isStrict, Bool.and_eq_true] at hst
    rw [freeNames] at hs
    rcases List.mem_append.mp hs with hf | ha
    · obtain ⟨err, he⟩ := ihf hst.1 hf
      exact ⟨err, by rw [evalE, he]; rfl⟩
    · obtain ⟨err, he⟩ := iha hst.2 ha
      cases hq : evalE ds f with
      | error err2 => exact ⟨err2, by rw [evalE, hq]; rfl⟩
      | ok vf => exact ⟨err, by rw [evalE, hq, he]; rfl⟩
  | listLit qs => simp [freeNames] at hs
  | binop op a b iha ihb =>
    rw [isStrict, Bool.and_eq_true] at hst
    rw [freeNames] at hs
    rcases List.mem_append.mp hs with hf | hb
    · obtain ⟨err, he⟩ := iha hst.1 hf
      exact ⟨err, by rw [evalE, he]; rfl⟩
    · obtain ⟨err, he⟩ := ihb hst.2 hb
      cases hq : evalE ds a with
      | error err2 => exact ⟨err2, by rw [evalE, hq]; rfl⟩
      | ok va => exact ⟨err, by rw [evalE, hq, he]; rfl⟩
  | orElse a b iha ihb => simp [isStrict] at hst
  | andAlso a b iha ihb => simp [isStrict] at hst
  | cond a c b iha ihc ihb => simp [isStrict] at hst

/-- C6 (amended): the environment handed to the host evaluator binds
`pos` *and* the numpy module `np` (builtins are empty), so center
evaluation is refused with an error — with no center set — whenever
evaluation resolves an identifier other than `pos` or `np`.  For
expressions without Python's short-circuit/conditional constructs every
subexpression is evaluated, so there the mere *presence* of such an
identifier forces refusal; a short-circuit expression can instead be
accepted without ever resolving the unknown name — `[1, 2] or foo` sets
the center to (1, 2) — and numpy expressions reached through `np` are
accepted when the result converts to a numeric vector with at least two
components. -/
theorem center_expr_rejects_unknown_names (ds : DataSet) (e : PExpr)
    (hst : isStrict e = true)
    (h : ∃ s ∈ freeNames e, s ≠ "pos" ∧ s ≠ "np") :
    (∃ err, evalCenter ds e = .error err) ∧
    evalCenter ds (.orElse (.listLit [1, 2]) (.name "foo")) = .ok (1, 2) := by
  refine ⟨?_, rfl⟩
  obtain ⟨s, hs, h1, h2⟩ := h
  obtain ⟨err, he⟩ := evalE_error_of_bad_name ds e hst s hs h1 h2
  exact ⟨err, by rw [evalCenter, he]; rfl⟩

/-- Witness for `center_expr_rejects_unknown_names`: a bare unknown
identifier is refused. -/
theorem center_expr_rejects_unknown_names_witness :
    let ds : DataSet :=
      { ids := [1], x := [5], y := [6], z := [0], box := ⟨0, 9, 0, 9, 0, 0⟩ }
    (∃ err, evalCenter ds (.name "foo") = .error err) ∧
    evalCenter ds (.orElse (.listLit [1, 2]) (.name "foo")) = .ok (1, 2) := by
  intro ds
  exact center_expr_rejects_unknown_names ds (.name "foo") (by decide)
    ⟨"foo", by decide, by decide, by decide⟩

end DBInit
